import Mathlib

/-
Verification of the templar template-composition preprocessor.

Shallow embedding of the core functions:
  - TransformName / ApplyNamespaceToTree / CollectTemplateNames /
    CollectLocalReferences / ComputeReachableTemplates / CopyTreeWithRewrites
    (parse-tree utilities)
  - processNamespacedTemplate / processExtensionsList / the ProcessedTemplate
    callback of PreProcessHtmlTemplate (composition engine)
  - Walker.Walk (directive preprocessor, cycle detection)
  - Template.AddDependency, LoaderList.Load, FileSystemLoader.Load

Go strings that participate in character-level operations are modelled as
List Char (TName); Go maps are modelled as association lists with
List.lookup, and map-valued sets as lists with membership as the
observation (Go iterates these sets in unspecified order and downstream
code only tests membership).
-/

namespace Templar

/-- Template names, modelling Go strings at the character level. -/
abbrev TName := List Char

/-- Shorthand turning a string literal into a TName. -/
def nm (s : String) : TName := s.toList

/-- Models strings.HasPrefix(name, "::"). -/
def startsWithColonColon : TName → Bool
  | c1 :: c2 :: _ => c1 == ':' && c2 == ':'
  | _ => false

/-- Models strings.Contains(name, ":") (single-character needle). -/
def hasColon (n : TName) : Bool := n.contains ':'

/-- TransformName applies namespace resolution rules to a template reference
name. Direct embedding of TransformName:
if strings.HasPrefix(name, "::") return strings.TrimPrefix(name, "::");
if strings.Contains(name, ":") return name;
return namespace + ":" + name. -/
def TransformName (name ns : TName) : TName :=
  if startsWithColonColon name then name.drop 2
  else if hasColon name then name
  else ns ++ ':' :: name

/-
Parse trees (text/template/parse), modelling only what WalkParseTree
distinguishes: ListNode children, TemplateNode names, the List/ElseList of
If/Range/With nodes, and the leaf node kinds. A nil Go node inside a list
position is modelled as listNode []; the possibly-nil ElseList pointer is
modelled as an Option.
-/
inductive PNode where
  | listNode (children : List PNode)
  | templateNode (name : TName)
  | ifNode (list : PNode) (elseList : Option PNode)
  | rangeNode (list : PNode) (elseList : Option PNode)
  | withNode (list : PNode) (elseList : Option PNode)
  | actionNode
  | textNode
  | commentNode
  | pipeNode

/-- A parse.Tree: a name plus a root node. -/
structure PTree where
  name : TName
  root : PNode

instance : Inhabited PNode := ⟨.textNode⟩

instance : Inhabited PTree := ⟨⟨[], .textNode⟩⟩

/-
WalkParseTree with a visitor mutating each TemplateNode's Name is modelled
as the pure map transformNode f; WalkParseTree with a collecting visitor is
modelled as collectTemplateNames (CollectTemplateNames), both following the
same traversal order (list children in order, then for branch nodes List
before ElseList).
-/
mutual

/-- Models WalkParseTree(node, func(n) { n.Name = f(n.Name) }). -/
def transformNode (f : TName → TName) : PNode → PNode
  | .listNode cs => .listNode (transformNodeList f cs)
  | .templateNode n => .templateNode (f n)
  | .ifNode l e => .ifNode (transformNode f l) (transformNodeOpt f e)
  | .rangeNode l e => .rangeNode (transformNode f l) (transformNodeOpt f e)
  | .withNode l e => .withNode (transformNode f l) (transformNodeOpt f e)
  | .actionNode => .actionNode
  | .textNode => .textNode
  | .commentNode => .commentNode
  | .pipeNode => .pipeNode

def transformNodeList (f : TName → TName) : List PNode → List PNode
  | [] => []
  | c :: cs => transformNode f c :: transformNodeList f cs

def transformNodeOpt (f : TName → TName) : Option PNode → Option PNode
  | none => none
  | some p => some (transformNode f p)

end

mutual

/-- Models CollectTemplateNames: every TemplateNode name in traversal order. -/
def collectTemplateNames : PNode → List TName
  | .listNode cs => collectTemplateNamesList cs
  | .templateNode n => [n]
  | .ifNode l e => collectTemplateNames l ++ collectTemplateNamesOpt e
  | .rangeNode l e => collectTemplateNames l ++ collectTemplateNamesOpt e
  | .withNode l e => collectTemplateNames l ++ collectTemplateNamesOpt e
  | .actionNode => []
  | .textNode => []
  | .commentNode => []
  | .pipeNode => []

def collectTemplateNamesList : List PNode → List TName
  | [] => []
  | c :: cs => collectTemplateNames c ++ collectTemplateNamesList cs

def collectTemplateNamesOpt : Option PNode → List TName
  | none => []
  | some p => collectTemplateNames p

end

/-- Models ApplyNamespaceToTree: rewrite every TemplateNode name with
TransformName(name, namespace); the tree's own name is untouched. -/
def ApplyNamespaceToTree (tree : PTree) (ns : TName) : PTree :=
  { tree with root := transformNode (fun n => TransformName n ns) tree.root }

/-- Models IsLocalReference: neither explicitly namespaced nor globally
escaped. -/
def IsLocalReference (n : TName) : Bool := !startsWithColonColon n && !hasColon n

/-- Models CollectLocalReferences: the deduplicated local template-call
names of a tree. Go builds a map and returns its keys in unspecified order;
downstream code only tests membership, which dedup preserves. -/
def collectLocalReferences (t : PNode) : List TName :=
  ((collectTemplateNames t).filter IsLocalReference).dedup

/-- The mark-and-enqueue body of ComputeReachableTemplates, folded over a
list of candidate names: a name that is a key of templates and not yet
marked is marked and appended to the queue. The same body seeds the queue
from the entry points and extends it from each dequeued node's local
references. -/
def enqueueRefs (ts : List (TName × PTree)) (refs : List TName)
    (st : List TName × List TName) : List TName × List TName :=
  refs.foldl
    (fun acc ref =>
      if (List.lookup ref ts).isSome && !acc.1.contains ref then
        (ref :: acc.1, acc.2 ++ [ref])
      else acc)
    st

/-- Termination measure for the BFS worklist: unmarked keys plus pending
queue entries. Each mark removes a key from the deficit while adding one
queue entry, and each dequeue removes a queue entry, so the measure drops
by one per loop iteration. -/
def bfsMeasure (ts : List (TName × PTree)) (reachable queue : List TName) : Nat :=
  ((ts.map Prod.fst).toFinset \ reachable.toFinset).card + queue.length

/-- The while-queue loop of ComputeReachableTemplates: dequeue a name, look
up its tree (skipping when absent, as Go does for nil map entries), and
mark-and-enqueue each of its local references that is a key. -/
def bfsLoop (ts : List (TName × PTree)) : List TName → List TName → List TName
  | [], reachable => reachable
  | current :: rest, reachable =>
    match List.lookup current ts with
    | none => bfsLoop ts rest reachable
    | some tree =>
      let st := enqueueRefs ts (collectLocalReferences tree.root) (reachable, rest)
      bfsLoop ts st.2 st.1
termination_by queue reachable => bfsMeasure ts reachable queue
decreasing_by
· simp only [bfsMeasure, List.length_cons]
  omega
· have key : ∀ (refs : List TName) (r q : List TName),
      bfsMeasure ts (enqueueRefs ts refs (r, q)).1 (enqueueRefs ts refs (r, q)).2 ≤
        bfsMeasure ts r q := by
    intro refs
    induction refs with
    | nil => intro r q; simp [enqueueRefs]
    | cons ref rfs ih =>
      intro r q
      simp only [enqueueRefs, List.foldl_cons] at ih ⊢
      by_cases hc : ((List.lookup ref ts).isSome && !r.contains ref) = true
      · rw [if_pos hc]
        refine le_trans (ih (ref :: r) (q ++ [ref])) (le_of_eq ?_)
        simp only [Bool.and_eq_true, Bool.not_eq_true'] at hc
        have hnr : ref ∉ r := by simpa using hc.2
        have hkey : ref ∈ (ts.map Prod.fst).toFinset := by
          rw [List.mem_toFinset]
          have := hc.1
          rw [List.lookup_isSome_iff] at this
          obtain ⟨p, hp, hpe⟩ := this
          exact List.mem_map.mpr ⟨p, hp, (beq_iff_eq.mp hpe).symm⟩
        have hmem : ref ∈ (ts.map Prod.fst).toFinset \ r.toFinset := by
          rw [Finset.mem_sdiff]
          exact ⟨hkey, by simpa using hnr⟩
        have hpos : 0 < ((ts.map Prod.fst).toFinset \ r.toFinset).card :=
          Finset.card_pos.mpr ⟨ref, hmem⟩
        simp only [bfsMeasure, List.toFinset_cons, Finset.sdiff_insert,
          Finset.card_erase_of_mem hmem, List.length_append, List.length_cons,
          List.length_nil]
        omega
      · rw [if_neg hc]
        exact ih r q
  calc bfsMeasure ts (enqueueRefs ts (collectLocalReferences tree.root) (reachable, rest)).1
        (enqueueRefs ts (collectLocalReferences tree.root) (reachable, rest)).2 ≤
      bfsMeasure ts reachable rest := key _ reachable rest
    _ < bfsMeasure ts reachable (current :: rest) := by
        simp only [bfsMeasure, List.length_cons]
        omega

/-- Models ComputeReachableTemplates: seed the worklist from the entry
points that are keys, then BFS through each tree's local references that
are keys. Returns the reachable set (as a list; only membership is
observed, matching Go's map[string]bool result). -/
def ComputeReachableTemplates (ts : List (TName × PTree)) (entryPoints : List TName) :
    List TName :=
  let st := enqueueRefs ts entryPoints ([], [])
  bfsLoop ts st.2 st.1

/-- Spec-side edge relation of the reachability claim: an edge from the
template keyed m to the name n exists only when n is a template-call name
of m's tree that is neither namespaced nor globally escaped, and n is a
key of templates. -/
def EdgeTo (ts : List (TName × PTree)) (m n : TName) : Prop :=
  ∃ t, List.lookup m ts = some t ∧ IsLocalReference n = true ∧
    n ∈ collectTemplateNames t.root ∧ (List.lookup n ts).isSome = true

/-- Spec-side closure: names reachable from the entry points along EdgeTo.
Entry points that are keys of templates are included; missing ones are
omitted. -/
inductive ReachSpec (ts : List (TName × PTree)) (eps : List TName) : TName → Prop where
  | entry {n : TName} : n ∈ eps → (List.lookup n ts).isSome = true → ReachSpec ts eps n
  | step {m n : TName} : ReachSpec ts eps m → EdgeTo ts m n → ReachSpec ts eps n

/-- Models the per-record body of processNamespacedTemplate after parsing
curr.ParsedSource: restrict to the reachable closure when entry points are
present (otherwise all names), then for each included name that has a tree,
deep-copy it, apply TransformName to its call nodes, and register it under
the transformed name. The first component records which source-level
definition each addition came from. -/
def processNamespacedTemplate (ts : List (TName × PTree)) (ns : TName) (eps : List TName) :
    List (TName × (TName × PTree)) :=
  let toInclude := if eps.isEmpty then ts.map Prod.fst else ComputeReachableTemplates ts eps
  toInclude.filterMap fun n =>
    (List.lookup n ts).map fun t =>
      (n, (TransformName n ns,
        ⟨TransformName n ns, transformNode (fun m => TransformName m ns) t.root⟩))

/-- Concrete two-template registry used by witnesses: "a" calls "b". -/
def reachExampleTemplates : List (TName × PTree) :=
  [(nm "a", ⟨nm "a", .templateNode (nm "b")⟩), (nm "b", ⟨nm "b", .textNode⟩)]

/-- An extend directive: copy SourceTemplate as DestTemplate, rewriting the
template-call names listed in Rewrites (a map old → new). -/
structure Extension where
  SourceTemplate : TName
  DestTemplate : TName
  Rewrites : List (TName × TName)

/-- The rewrite applied per call node by CopyTreeWithRewrites: the mapped
value when the name is a key of the rewrites map, the name itself
otherwise. -/
def applyRewrite (rewrites : List (TName × TName)) (n : TName) : TName :=
  match List.lookup n rewrites with
  | some newName => newName
  | none => n

/-- Models CopyTreeWithRewrites: a deep copy whose template-call names are
rewritten through the map; the copy keeps the source tree's own name (the
caller renames it afterwards). -/
def CopyTreeWithRewrites (tree : PTree) (rewrites : List (TName × TName)) : PTree :=
  ⟨tree.name, transformNode (applyRewrite rewrites) tree.root⟩

/-- Models html/template's AddParseTree observable behaviour on the
registry: the new association shadows any previous tree of the same name;
lookups of other names are unchanged. -/
def addParseTree (reg : List (TName × PTree)) (n : TName) (t : PTree) :
    List (TName × PTree) :=
  (n, t) :: reg

/-- The composition-time extension error of group.go
("extend: source template not found"). -/
inductive ExtendErr where
  | extendSourceMissing (name : TName)

/-- Models processExtensionsList: process extensions in recorded order; a
missing source aborts with extendSourceMissing, otherwise the copy with
rewrites applied is registered under the destination name and processing
continues. -/
def processExtensionsList :
    List Extension → List (TName × PTree) → Except ExtendErr (List (TName × PTree))
  | [], out => .ok out
  | ext :: rest, out =>
    match List.lookup ext.SourceTemplate out with
    | none => .error (.extendSourceMissing ext.SourceTemplate)
    | some src =>
      processExtensionsList rest
        (addParseTree out ext.DestTemplate
          ⟨ext.DestTemplate, (CopyTreeWithRewrites src ext.Rewrites).root⟩)

/-- Concrete registry for the extension witnesses: one source template
whose body calls "EL:GridCardPreview". -/
def extExampleRegistry : List (TName × PTree) :=
  [(nm "EL:Grid", ⟨nm "EL:Grid", .templateNode (nm "EL:GridCardPreview")⟩)]

/-- First chained extension: copy "EL:Grid" as "MyGrid", rewriting the
preview call. -/
def extExample1 : Extension :=
  ⟨nm "EL:Grid", nm "MyGrid", [(nm "EL:GridCardPreview", nm "MyPreview")]⟩

/-- Second chained extension: its source is the first one's destination. -/
def extExample2 : Extension := ⟨nm "MyGrid", nm "MyListing", []⟩

/-- The registry after materializing the first example extension. -/
def extExampleRegistryAfter : List (TName × PTree) :=
  addParseTree extExampleRegistry (nm "MyGrid")
    ⟨nm "MyGrid",
      (CopyTreeWithRewrites ⟨nm "EL:Grid", .templateNode (nm "EL:GridCardPreview")⟩
        extExample1.Rewrites).root⟩

/-
The Template record of template.go: Name, RawSource, ParsedSource, Path,
Status, AsHtml, includes, Error, Metadata. A Lean structure cannot contain
a List of itself, so the record is an inductive with projection functions.
RawSource ([]byte) is modelled as a List Char; Error as an optional
message; Metadata as an opaque key/value bag the core never reads.
-/
inductive Template where
  | mk (name : String) (rawSource : List Char) (parsedSource : String) (path : String)
      (status : Int) (asHtml : Bool) (includes : List Template)
      (error : Option String) (metadata : List (String × String))

def Template.name : Template → String
  | .mk n _ _ _ _ _ _ _ _ => n

def Template.rawSource : Template → List Char
  | .mk _ r _ _ _ _ _ _ _ => r

def Template.parsedSource : Template → String
  | .mk _ _ p _ _ _ _ _ _ => p

def Template.path : Template → String
  | .mk _ _ _ p _ _ _ _ _ => p

def Template.status : Template → Int
  | .mk _ _ _ _ s _ _ _ _ => s

def Template.asHtml : Template → Bool
  | .mk _ _ _ _ _ a _ _ _ => a

def Template.includes : Template → List Template
  | .mk _ _ _ _ _ _ i _ _ => i

def Template.error : Template → Option String
  | .mk _ _ _ _ _ _ _ e _ => e

def Template.metadata : Template → List (String × String)
  | .mk _ _ _ _ _ _ _ _ m => m

/-- The record with its includes list replaced (the effect of the Go
append on the mutable field). -/
def Template.withIncludes : Template → List Template → Template
  | .mk n r p pa s a _ e m, i => .mk n r p pa s a i e m

/-- Models Template.AddDependency: inside the "t.Path != \"\"" guard, the
loop returns false at the first existing include with the same Path
(before appending); otherwise the candidate is appended. With an empty
t.Path the loop and append are skipped and true is returned. The Go method
mutates t and returns the bool; the model returns the updated record
paired with the bool. -/
def AddDependency (t another : Template) : Template × Bool :=
  if t.path ≠ "" then
    if t.includes.any (fun child => child.path == another.path) then (t, false)
    else (t.withIncludes (t.includes ++ [another]), true)
  else (t, true)

/-- An inline record (empty path) with no dependencies. -/
def inlineRootTemplate : Template := .mk "" [] "" "" 0 false [] none []

/-- A file-backed candidate dependency. -/
def fileChildTemplate : Template := .mk "" [] "" "/views/a.html" 0 false [] none []

/-- A file-backed root record with no dependencies. -/
def fileRootTemplate : Template := .mk "" [] "" "/views/root.html" 0 false [] none []

/-- Loader errors: the TemplateNotFound sentinel versus any other error. -/
inductive LoadErr where
  | notFound
  | ioError (msg : String)
deriving DecidableEq

/-- The (templates, error) pair a Go loader returns; both components can be
populated at once. -/
structure LoadResult where
  matched : List Template
  err : Option LoadErr

/-- A loader, as the function (pattern, cwd) → result of its Load method. -/
abbrev LoaderFn := String → String → LoadResult

/-- The member loop of LoaderList.Load: return the first successful match
(nil error and non-empty list); a TemplateNotFound error continues with
the next member; any other outcome — a different error, or an error-free
empty result — breaks out of the loop. none means the loop ended without a
successful match, whether by exhaustion or by break. -/
def tryLoaders (name cwd : String) : List LoaderFn → Option LoadResult
  | [] => none
  | l :: rest =>
    let res := l name cwd
    if res.err = none ∧ res.matched.length > 0 then some res
    else if res.err = some .notFound then tryLoaders name cwd rest
    else none

/-- Models the LoaderList composite loader: an ordered member list plus an
optional fallback. -/
structure LoaderList where
  DefaultLoader : Option LoaderFn
  loaders : List LoaderFn

/-- Models LoaderList.Load: run the member loop; when it produces no
successful match, consult the default loader if configured, else return
TemplateNotFound. Note the fall-through happens after a break as well. -/
def LoaderList.Load (t : LoaderList) (name cwd : String) : LoadResult :=
  match tryLoaders name cwd t.loaders with
  | some res => res
  | none =>
    match t.DefaultLoader with
    | some d => d name cwd
    | none => ⟨[], some .notFound⟩

/-- A member loader failing with a non-not-found error. -/
def ioFailingLoader : LoaderFn := fun _ _ => ⟨[], some (.ioError "read failed")⟩

/-- The record returned by the example default loader. -/
def defaultMarkerTemplate : Template := .mk "default" [] "" "/default.html" 0 false [] none []

/-- A default loader returning a successful match. -/
def defaultExampleLoader : LoaderFn := fun _ _ => ⟨[defaultMarkerTemplate], none⟩

/-- A member loader returning the TemplateNotFound sentinel. -/
def notFoundLoader : LoaderFn := fun _ _ => ⟨[], some .notFound⟩

/-- A composite loader with one erroring member and a configured default. -/
def loaderListExample : LoaderList := ⟨some defaultExampleLoader, [ioFailingLoader]⟩

/-- Keys of the record store not yet in the walker's in-progress set; the
primary termination measure of the walk. -/
def unvisitedKeyCount (store : List (String × List String)) (ip : List String) : Nat :=
  ((store.map Prod.fst).toFinset \ ip.toFinset).card

/-
Walker.Walk, modelled over a record store mapping each file-backed record's
path to the list of paths its include directives name (the include calls
made while the host engine executes the record's directive template; the
host engine itself is out of scope). Walk: if the record's path is already
in the shared in-progress set, log a warning and return success with no
visits; otherwise mark the path (the Go defer-unmark on return is the same
as passing the set down by value), process each include in order — a path
the store cannot resolve is a fatal loader failure, a duplicate dependency
edge is skipped as AddDependency does, otherwise recurse — and finally
report this record as processed (in-order: children first). Returns the
processed paths in order, or none when a load fails.
-/
mutual

def WalkerWalk (store : List (String × List String)) (ip : List String) (path : String) :
    Option (List String) :=
  if hc : ip.contains path then some []
  else
    match hlk : List.lookup path store with
    | none => none
    | some incs =>
      match walkChildren store (path :: ip) incs [] with
      | none => none
      | some visited => some (visited ++ [path])
termination_by (unvisitedKeyCount store ip, 0)
decreasing_by
apply Prod.Lex.left
have hnotin : path ∉ ip := by
  intro hmem
  exact hc (by simpa using hmem)
have hkey : path ∈ (store.map Prod.fst).toFinset := by
  rw [List.mem_toFinset]
  have hs : (List.lookup path store).isSome = true := by
    rw [hlk]
    rfl
  rw [List.lookup_isSome_iff] at hs
  obtain ⟨p, hp, hpe⟩ := hs
  exact List.mem_map.mpr ⟨p, hp, (beq_iff_eq.mp hpe).symm⟩
have hsub : (store.map Prod.fst).toFinset \ (path :: ip).toFinset ⊆
    (store.map Prod.fst).toFinset \ ip.toFinset := by
  intro x hx
  rw [Finset.mem_sdiff] at hx ⊢
  refine ⟨hx.1, fun hm => hx.2 ?_⟩
  rw [List.toFinset_cons, Finset.mem_insert]
  exact Or.inr hm
have hmem : path ∈ (store.map Prod.fst).toFinset \ ip.toFinset := by
  rw [Finset.mem_sdiff]
  exact ⟨hkey, by simpa using hnotin⟩
have hnot : path ∉ (store.map Prod.fst).toFinset \ (path :: ip).toFinset := by
  rw [Finset.mem_sdiff, List.toFinset_cons]
  rintro ⟨-, hno⟩
  exact hno (Finset.mem_insert_self path ip.toFinset)
exact Finset.card_lt_card ((Finset.ssubset_iff_of_subset hsub).mpr ⟨path, hmem, hnot⟩)

def walkChildren (store : List (String × List String)) (ip : List String) :
    List String → List String → Option (List String)
  | [], _ => some []
  | inc :: rest, deps =>
    if deps.contains inc then walkChildren store ip rest deps
    else
      match WalkerWalk store ip inc with
      | none => none
      | some visited =>
        match walkChildren store ip rest (inc :: deps) with
        | none => none
        | some more => some (visited ++ more)
termination_by incs deps => (unvisitedKeyCount store ip, incs.length + 1)
decreasing_by
· apply Prod.Lex.right
  simp only [List.length_cons]
  omega
· apply Prod.Lex.right
  simp only [List.length_cons]
  omega
· apply Prod.Lex.right
  simp only [List.length_cons]
  omega

end

/-- A two-record store whose include graph is the cycle a → b → a. -/
def cyclicStore : List (String × List String) := [("a", ["b"]), ("b", ["a"])]

/-- Go's filepath.Base on slash-separated paths: "." for the empty path,
otherwise the last component after stripping trailing separators, "/" when
the path is all separators. -/
def filepathBase (p : String) : String :=
  if p = "" then "."
  else ((((p.splitOn "/").filter (fun s => s != "")).getLast?).getD "/")

/-- Models processSelectiveInclude: restrict the parsed trees to the
reachable closure of the entry points and add each surviving tree under
its original name, unmodified. -/
def processSelectiveInclude (ts : List (TName × PTree)) (eps : List TName) :
    List (TName × PTree) :=
  (ComputeReachableTemplates ts eps).filterMap fun n =>
    (List.lookup n ts).map fun t => (n, t)

/-- The composition-relevant view of a record at the moment the
ProcessedTemplate callback of PreProcessHtmlTemplate runs: its path,
namespace and entry points, plus the outcome of parsing its ParsedSource —
the named sub-trees (defines) and the top-level tree. Parsing is the host
engine's job (out of scope); the record carries its result. -/
structure CRecord where
  path : String
  ns : TName
  entryPoints : List TName
  parsedDefs : List (TName × PTree)
  mainTree : PTree

/-- Models the registry effect of the ProcessedTemplate callback installed
by PreProcessHtmlTemplate (extension accumulation is modelled separately by
processExtensionsList): a non-root record with no namespace and no entry
points is skipped — its definitions already travelled in the parent
walker's shared buffer; an inline record (empty path) merges its parsed
defines; a namespaced record goes through processNamespacedTemplate; entry
points without a namespace go through processSelectiveInclude; otherwise
the record's defines are merged and its top-level tree is registered under
the file's base name. -/
def processRecord (reg : List (TName × PTree)) (curr : CRecord) (isRoot : Bool) :
    List (TName × PTree) :=
  if ¬isRoot ∧ curr.ns = [] ∧ curr.entryPoints = [] then reg
  else if curr.path = "" then curr.parsedDefs ++ reg
  else if curr.ns ≠ [] then
    (processNamespacedTemplate curr.parsedDefs curr.ns curr.entryPoints).map Prod.snd ++ reg
  else if curr.entryPoints ≠ [] then
    processSelectiveInclude curr.parsedDefs curr.entryPoints ++ reg
  else
    addParseTree (curr.parsedDefs ++ reg) (nm (filepathBase curr.path)) curr.mainTree

/-- A non-root file-backed record with no namespace and no entry points. -/
def childPlainRecord : CRecord :=
  ⟨"/views/child.html", [], [], [(nm "widget", ⟨nm "widget", .textNode⟩)],
    ⟨nm "childbody", .textNode⟩⟩

/-- A file-backed root record with no namespace and no entry points. -/
def rootPlainRecord : CRecord :=
  ⟨"/views/page.html", [], [], [(nm "header", ⟨nm "header", .textNode⟩)],
    ⟨nm "pagebody", .textNode⟩⟩

/-- Helper for filepath.Ext: scan the reversed character list from the end
of the path; collect until the final dot (returning the suffix from that
dot) and stop at a separator or the start (no extension). -/
def lastDotSuffixAux : List Char → List Char → Option (List Char)
  | [], _ => none
  | c :: rest, acc =>
    if c = '/' then none
    else if c = '.' then some (c :: acc)
    else lastDotSuffixAux rest (c :: acc)

/-- Go's filepath.IsAbs on slash-separated paths. -/
def isAbsolutePath (s : String) : Bool :=
  match s.toList with
  | '/' :: _ => true
  | _ => false

/-- Stat result: whether the path names a directory. -/
structure StatInfo where
  isDir : Bool

/-- The filesystem operations FileSystemLoader.Load performs, abstracted:
filepath.Abs on a folder, filepath.Abs of filepath.Join on folder+file
(none models an Abs error), os.Stat (none models any stat failure), and
os.ReadFile returning contents together with an optional error — the pair
the Go call returns. -/
structure FS where
  absPath : String → Option String
  joinAbs : String → String → Option String
  stat : String → Option StatInfo
  readFile : String → List Char × Option LoadErr

/-- The FileSystemLoader configuration: search folders and accepted
extensions. -/
structure FSLoader where
  Folders : List String
  Extensions : List String

/-- The inner loop of FileSystemLoader.Load: for each candidate extension,
form withoutext.ext, resolve it under the folder, and when it stats as an
existing non-directory, read it and return the single fresh record — with
ReadFile's error passed through as the function's error. -/
def tryExtensions (fs : FS) (folder withoutext : String) :
    List String → Option (List Template × Option LoadErr)
  | [] => none
  | e :: rest =>
    match fs.joinAbs folder (withoutext ++ "." ++ e) with
    | none => tryExtensions fs folder withoutext rest
    | some fname =>
      match fs.stat fname with
      | some info =>
        if !info.isDir then
          some ([Template.mk "" (fs.readFile fname).1 "" fname 0 false [] none []],
            (fs.readFile fname).2)
        else tryExtensions fs folder withoutext rest
      | none => tryExtensions fs folder withoutext rest

/-- The outer loop of FileSystemLoader.Load: skip folders whose Abs fails,
that do not exist, or that are not directories; inside a usable folder try
the candidate extensions, returning the first hit. -/
def tryFolders (fs : FS) (withoutext : String) (extensions : List String) :
    List String → Option (List Template × Option LoadErr)
  | [] => none
  | folder :: rest =>
    match fs.absPath folder with
    | none => tryFolders fs withoutext extensions rest
    | some folderAbs =>
      match fs.stat folderAbs with
      | none => tryFolders fs withoutext extensions rest
      | some info =>
        if info.isDir then
          match tryExtensions fs folderAbs withoutext extensions with
          | some res => some res
          | none => tryFolders fs withoutext extensions rest
        else tryFolders fs withoutext extensions rest

/-- The tail of FileSystemLoader.Load after the folder loop: the first hit
if any, otherwise TemplateNotFound. -/
def loadResultOf (fs : FS) (withoutext : String) (extensions folders : List String) :
    List Template × Option LoadErr :=
  match tryFolders fs withoutext extensions folders with
  | some res => res
  | none => ([], some .notFound)

/-- Models FileSystemLoader.Load: split off an explicit extension via
filepath.Ext (then only that extension is tried and the name is truncated
before it) or use the configured list; a relative pattern ("./" or "../"
prefix) with a non-empty cwd searches only cwd, a non-relative one appends
cwd after the configured folders; then run the folder loop, returning
TemplateNotFound when nothing matched. String slicing is modelled at
character granularity. -/
def FileSystemLoaderLoad (g : FSLoader) (fs : FS) (name cwd : String) :
    List Template × Option LoadErr :=
  let extL := (lastDotSuffixAux name.toList.reverse []).getD []
  let extensions := if extL.isEmpty then g.Extensions else [(extL.drop 1).asString]
  let withoutext := if extL.isEmpty then name
    else (name.toList.take (name.toList.length - extL.length)).asString
  let isRelative : Bool :=
    match name.toList with
    | '.' :: '/' :: _ => true
    | '.' :: '.' :: '/' :: _ => true
    | _ => false
  let folders :=
    if cwd ≠ "" then
      if isRelative then [cwd] else g.Folders ++ [cwd]
    else g.Folders
  loadResultOf fs withoutext extensions folders

/-- A concrete filesystem with the single file /root/x.tmpl. -/
def exampleFS : FS :=
  ⟨fun _ => some "/root",
   fun _ _ => some "/root/x.tmpl",
   fun p => if p = "/root" then some ⟨true⟩
     else if p = "/root/x.tmpl" then some ⟨false⟩ else none,
   fun _ => (nm "hello", none)⟩

/-- A loader searching the folder "root" with the default extensions. -/
def exampleFSLoader : FSLoader := ⟨["root"], ["tmpl", "tmplus", "html"]⟩

/- ===================== THEOREMS ===================== -/

/-- Bridge between the code-side prefix test and the spec-side phrasing. -/
theorem startsWithColonColon_iff_take (r : TName) :
    startsWithColonColon r = true ↔ r.take 2 = nm "::" := by
  match r with
  | [] => simp [startsWithColonColon, nm]
  | [c] => simp [startsWithColonColon, nm]
  | c1 :: c2 :: rest => simp [startsWithColonColon, nm]

/-- Membership form of hasColon. -/
theorem hasColon_iff_mem (n : TName) : hasColon n = true ↔ ':' ∈ n := by
  simp [hasColon]

/-- A name with no colon at all neither starts with "::" nor contains ":". -/
theorem startsWithColonColon_eq_false_of_no_colon {r : TName} (h : ':' ∉ r) :
    startsWithColonColon r = false := by
  match r with
  | [] => rfl
  | [c] => rfl
  | c1 :: c2 :: rest =>
    simp only [startsWithColonColon, Bool.and_eq_false_iff, beq_eq_false_iff_ne]
    left
    intro hc
    exact h (hc ▸ List.mem_cons_self c1 (c2 :: rest))

/-- C1 (amended): TransformName returns the remainder after the two leading
characters when r begins with "::"; r unchanged when r does not begin with
"::" but contains ":"; and N ++ ":" ++ r when r contains no ":" — regardless
of whether the namespace N is empty (for empty N this is ":" ++ r, not r). -/
theorem transformName_cases (r N : TName) :
    (r.take 2 = nm "::" → TransformName r N = r.drop 2) ∧
    (r.take 2 ≠ nm "::" → ':' ∈ r → TransformName r N = r) ∧
    (':' ∉ r → TransformName r N = N ++ ':' :: r) := by
  refine ⟨fun h => ?_, fun h hc => ?_, fun h => ?_⟩
  · rw [TransformName, if_pos ((startsWithColonColon_iff_take r).mpr h)]
  · rw [TransformName,
      if_neg (fun hs => h ((startsWithColonColon_iff_take r).mp hs)),
      if_pos ((hasColon_iff_mem r).mpr hc)]
  · have h1 : startsWithColonColon r ≠ true := by
      rw [startsWithColonColon_eq_false_of_no_colon h]
      simp
    have h2 : hasColon r ≠ true := fun hh => h ((hasColon_iff_mem r).mp hh)
    rw [TransformName, if_neg h1, if_neg h2]

/-- C1 counterexample: the claim says TransformName returns r itself when r
contains no ":" and the namespace is empty, but the code unconditionally
prepends the namespace and a colon, yielding ":f" for r = "f", N = "". -/
theorem transformName_empty_ns_counterexample :
    ':' ∉ nm "f" ∧
      TransformName (nm "f") (nm "") = nm ":f" ∧
      TransformName (nm "f") (nm "") ≠ nm "f" := by decide

/-- C1 witness: the three cases of transformName_cases at concrete inputs. -/
theorem transformName_cases_witness :
    TransformName (nm "::formatDate") (nm "UI") = (nm "::formatDate").drop 2 ∧
      TransformName (nm "Other:widget") (nm "UI") = nm "Other:widget" ∧
      TransformName (nm "button") (nm "UI") = nm "UI" ++ ':' :: nm "button" :=
  ⟨(transformName_cases (nm "::formatDate") (nm "UI")).1 (by decide),
   (transformName_cases (nm "Other:widget") (nm "UI")).2.1 (by decide) (by decide),
   (transformName_cases (nm "button") (nm "UI")).2.2 (by decide)⟩

/-- A cons whose head is not a colon never starts with "::". -/
theorem startsWithColonColon_cons {c : Char} {l : TName} (h : c ≠ ':') :
    startsWithColonColon (c :: l) = false := by
  match l with
  | [] => rfl
  | d :: rest => simp [startsWithColonColon, h]

/-- A post-transform name is a fixed point of the transform, provided the
original name did not begin with "::" and the namespace does not begin
with ":". -/
theorem transformName_fixpoint {x N : TName}
    (hx : startsWithColonColon x = false) (hN : N.take 1 ≠ nm ":") :
    TransformName (TransformName x N) N = TransformName x N := by
  by_cases hc : hasColon x = true
  · have hx1 : TransformName x N = x := by
      simp only [TransformName, hx, Bool.false_eq_true, if_false, hc, if_true]
    rw [hx1]
    exact hx1
  · have hx1 : TransformName x N = N ++ ':' :: x := by
      simp only [TransformName, hx, Bool.false_eq_true, if_false, hc]
    have hcm : ':' ∉ x := fun hm => hc ((hasColon_iff_mem x).mpr hm)
    have hmem : hasColon (N ++ ':' :: x) = true :=
      (hasColon_iff_mem _).mpr (List.mem_append_right N (List.mem_cons_self ':' x))
    have hpre : startsWithColonColon (N ++ ':' :: x) = false := by
      match N with
      | [] =>
        simp only [List.nil_append]
        match x with
        | [] => rfl
        | c :: rest =>
          simp only [startsWithColonColon, Bool.and_eq_false_iff, beq_eq_false_iff_ne]
          right
          intro hcr
          exact hcm (hcr ▸ List.mem_cons_self c rest)
      | n1 :: N' =>
        have hn1 : n1 ≠ ':' := by
          intro h
          exact hN (by simp [nm, List.take, h])
        simpa only [List.cons_append] using startsWithColonColon_cons hn1
    rw [hx1]
    simp only [TransformName, hpre, Bool.false_eq_true, if_false, hmem, if_true]

mutual

/-- If g is idempotent on every template-call name of a node, transforming
twice equals transforming once. -/
theorem transformNode_twice (g : TName → TName) :
    ∀ t : PNode, (∀ n ∈ collectTemplateNames t, g (g n) = g n) →
      transformNode g (transformNode g t) = transformNode g t
  | .listNode cs, h => by
    simp only [transformNode, transformNodeList_twice g cs (by simpa [collectTemplateNames] using h)]
  | .templateNode n, h => by
    simp only [transformNode, h n (by simp [collectTemplateNames])]
  | .ifNode l e, h => by
    simp only [collectTemplateNames, List.mem_append] at h
    simp only [transformNode,
      transformNode_twice g l (fun n hn => h n (Or.inl hn)),
      transformNodeOpt_twice g e (fun n hn => h n (Or.inr hn))]
  | .rangeNode l e, h => by
    simp only [collectTemplateNames, List.mem_append] at h
    simp only [transformNode,
      transformNode_twice g l (fun n hn => h n (Or.inl hn)),
      transformNodeOpt_twice g e (fun n hn => h n (Or.inr hn))]
  | .withNode l e, h => by
    simp only [collectTemplateNames, List.mem_append] at h
    simp only [transformNode,
      transformNode_twice g l (fun n hn => h n (Or.inl hn)),
      transformNodeOpt_twice g e (fun n hn => h n (Or.inr hn))]
  | .actionNode, _ => rfl
  | .textNode, _ => rfl
  | .commentNode, _ => rfl
  | .pipeNode, _ => rfl

theorem transformNodeList_twice (g : TName → TName) :
    ∀ ts : List PNode, (∀ n ∈ collectTemplateNamesList ts, g (g n) = g n) →
      transformNodeList g (transformNodeList g ts) = transformNodeList g ts
  | [], _ => rfl
  | c :: cs, h => by
    simp only [collectTemplateNamesList, List.mem_append] at h
    simp only [transformNodeList,
      transformNode_twice g c (fun n hn => h n (Or.inl hn)),
      transformNodeList_twice g cs (fun n hn => h n (Or.inr hn))]

theorem transformNodeOpt_twice (g : TName → TName) :
    ∀ o : Option PNode, (∀ n ∈ collectTemplateNamesOpt o, g (g n) = g n) →
      transformNodeOpt g (transformNodeOpt g o) = transformNodeOpt g o
  | none, _ => rfl
  | some p, h => by
    simp only [transformNodeOpt,
      transformNode_twice g p (by simpa [collectTemplateNamesOpt] using h)]

end

/-- C2 (amended): applying the namespace tree transform twice with the same
N yields the same tree as applying it once, provided no template-call name
in the tree begins with "::" (a "::name" becomes "name" on the first pass
and would be re-prefixed on the second) and N does not begin with ":". -/
theorem applyNamespaceToTree_idempotent (t : PTree) (N : TName)
    (hnames : ∀ n ∈ collectTemplateNames t.root, n.take 2 ≠ nm "::")
    (hns : N.take 1 ≠ nm ":") :
    ApplyNamespaceToTree (ApplyNamespaceToTree t N) N = ApplyNamespaceToTree t N := by
  have hroot := transformNode_twice (fun n => TransformName n N) t.root
    (fun n hn => transformName_fixpoint
      (by
        cases hb : startsWithColonColon n with
        | false => rfl
        | true => exact absurd ((startsWithColonColon_iff_take n).mp hb) (hnames n hn))
      hns)
  simp only [ApplyNamespaceToTree] at hroot ⊢
  rw [hroot]

/-- C2 counterexample: for a tree containing the global-escape call "::g"
and namespace "NS", the first pass yields call name "g" and the second pass
renames it to "NS:g", so applying the transform twice differs from once. -/
theorem applyNamespaceToTree_not_idempotent :
    ApplyNamespaceToTree (ApplyNamespaceToTree ⟨nm "t", .templateNode (nm "::g")⟩ (nm "NS")) (nm "NS") ≠
      ApplyNamespaceToTree ⟨nm "t", .templateNode (nm "::g")⟩ (nm "NS") := by
  intro h
  have h2 := congrArg (fun tr => collectTemplateNames tr.root) h
  simp only [ApplyNamespaceToTree] at h2
  revert h2
  decide

/-- C2 witness: idempotence at a concrete tree and namespace. -/
theorem applyNamespaceToTree_idempotent_witness :
    ApplyNamespaceToTree (ApplyNamespaceToTree ⟨nm "t", .templateNode (nm "button")⟩ (nm "UI")) (nm "UI") =
      ApplyNamespaceToTree ⟨nm "t", .templateNode (nm "button")⟩ (nm "UI") :=
  applyNamespaceToTree_idempotent ⟨nm "t", .templateNode (nm "button")⟩ (nm "UI")
    (by decide) (by decide)

/-- Membership in the deduplicated local-reference list. -/
theorem mem_collectLocalReferences {n : TName} {t : PNode} :
    n ∈ collectLocalReferences t ↔
      IsLocalReference n = true ∧ n ∈ collectTemplateNames t := by
  simp [collectLocalReferences, List.mem_dedup, List.mem_filter, and_comm]

/-- Marked-set membership after one mark-and-enqueue pass: the old marks
plus every candidate that is a key. -/
theorem mem_enqueueRefs_fst (ts : List (TName × PTree)) (refs : List TName) :
    ∀ (r q : List TName) (x : TName),
      (x ∈ (enqueueRefs ts refs (r, q)).1 ↔
        x ∈ r ∨ (x ∈ refs ∧ (List.lookup x ts).isSome = true)) := by
  induction refs with
  | nil =>
    intro r q x
    simp [enqueueRefs]
  | cons ref rfs ih =>
    intro r q x
    simp only [enqueueRefs, List.foldl_cons] at ih ⊢
    by_cases hc : ((List.lookup ref ts).isSome && !r.contains ref) = true
    · rw [if_pos hc, ih]
      simp only [Bool.and_eq_true, Bool.not_eq_true'] at hc
      have hk1 := hc.1
      by_cases hx : x = ref
      · subst hx
        simp only [List.mem_cons, eq_self_iff_true, true_or, true_and]
        tauto
      · simp only [List.mem_cons, hx, false_or]
    · rw [if_neg hc, ih]
      have hcr : (List.lookup ref ts).isSome = true → ref ∈ r := by
        intro hk
        by_contra hnr
        exact hc (by simp [hk, hnr])
      by_cases hx : x = ref
      · subst hx
        simp only [List.mem_cons, eq_self_iff_true, true_or, true_and]
        tauto
      · simp only [List.mem_cons, hx, false_or]

/-- Queue membership after one mark-and-enqueue pass: the old queue plus
every candidate that is a key and was not yet marked. -/
theorem mem_enqueueRefs_snd (ts : List (TName × PTree)) (refs : List TName) :
    ∀ (r q : List TName) (x : TName),
      (x ∈ (enqueueRefs ts refs (r, q)).2 ↔
        x ∈ q ∨ (x ∈ refs ∧ (List.lookup x ts).isSome = true ∧ x ∉ r)) := by
  induction refs with
  | nil =>
    intro r q x
    simp [enqueueRefs]
  | cons ref rfs ih =>
    intro r q x
    simp only [enqueueRefs, List.foldl_cons] at ih ⊢
    by_cases hc : ((List.lookup ref ts).isSome && !r.contains ref) = true
    · rw [if_pos hc, ih]
      simp only [Bool.and_eq_true, Bool.not_eq_true'] at hc
      have hk1 := hc.1
      have hnr : ref ∉ r := by simpa using hc.2
      by_cases hx : x = ref
      · subst hx
        simp only [List.mem_append, List.mem_cons, List.mem_singleton,
          eq_self_iff_true, true_or, or_true, true_and]
        tauto
      · simp only [List.mem_append, List.mem_cons, List.mem_singleton, hx,
          false_or, or_false]
        tauto
    · rw [if_neg hc, ih]
      have hcr : (List.lookup ref ts).isSome = true → ref ∈ r := by
        intro hk
        by_contra hnr
        exact hc (by simp [hk, hnr])
      by_cases hx : x = ref
      · subst hx
        simp only [List.mem_cons, eq_self_iff_true, true_or, true_and]
        tauto
      · simp only [List.mem_cons, hx, false_or]

/-- A reachable name is always a key of the template map. -/
theorem reachSpec_lookup_isSome {ts : List (TName × PTree)} {eps : List TName} {n : TName}
    (h : ReachSpec ts eps n) : (List.lookup n ts).isSome = true := by
  induction h with
  | entry _ hk => exact hk
  | step _ he _ =>
    obtain ⟨t, -, -, -, hk⟩ := he
    exact hk

/-- The mark-and-enqueue pass never increases the BFS measure. -/
theorem enqueueRefs_measure_le (ts : List (TName × PTree)) (refs : List TName) :
    ∀ (r q : List TName),
      bfsMeasure ts (enqueueRefs ts refs (r, q)).1 (enqueueRefs ts refs (r, q)).2 ≤
        bfsMeasure ts r q := by
  induction refs with
  | nil =>
    intro r q
    simp [enqueueRefs]
  | cons ref rfs ih =>
    intro r q
    simp only [enqueueRefs, List.foldl_cons] at ih ⊢
    by_cases hc : ((List.lookup ref ts).isSome && !r.contains ref) = true
    · rw [if_pos hc]
      refine le_trans (ih (ref :: r) (q ++ [ref])) (le_of_eq ?_)
      simp only [Bool.and_eq_true, Bool.not_eq_true'] at hc
      have hnr : ref ∉ r := by simpa using hc.2
      have hkey : ref ∈ (ts.map Prod.fst).toFinset := by
        rw [List.mem_toFinset]
        have h1 := hc.1
        rw [List.lookup_isSome_iff] at h1
        obtain ⟨p, hp, hpe⟩ := h1
        exact List.mem_map.mpr ⟨p, hp, (beq_iff_eq.mp hpe).symm⟩
      have hmem : ref ∈ (ts.map Prod.fst).toFinset \ r.toFinset := by
        rw [Finset.mem_sdiff]
        exact ⟨hkey, by simpa using hnr⟩
      have hpos : 0 < ((ts.map Prod.fst).toFinset \ r.toFinset).card :=
        Finset.card_pos.mpr ⟨ref, hmem⟩
      simp only [bfsMeasure, List.toFinset_cons, Finset.sdiff_insert,
        Finset.card_erase_of_mem hmem, List.length_append, List.length_cons,
        List.length_nil]
      omega
    · rw [if_neg hc]
      exact ih r q

/-- Worklist invariant of the BFS loop: starting from a state where queue
entries are marked, every mark is reachable per the spec closure and is a
key, and every processed mark is edge-closed, the loop returns a superset
of the marks that is sound for ReachSpec, consists of keys, and is closed
under EdgeTo. -/
theorem bfsLoop_invariant (ts : List (TName × PTree)) (eps : List TName) :
    ∀ (n : Nat) (queue reachable : List TName),
      bfsMeasure ts reachable queue ≤ n →
      (∀ x ∈ queue, x ∈ reachable) →
      (∀ x ∈ reachable, ReachSpec ts eps x) →
      (∀ x ∈ reachable, (List.lookup x ts).isSome = true) →
      (∀ m, m ∈ reachable → m ∉ queue → ∀ k, EdgeTo ts m k → k ∈ reachable) →
      (∀ x ∈ reachable, x ∈ bfsLoop ts queue reachable) ∧
      (∀ x ∈ bfsLoop ts queue reachable, ReachSpec ts eps x) ∧
      (∀ x ∈ bfsLoop ts queue reachable, (List.lookup x ts).isSome = true) ∧
      (∀ x ∈ bfsLoop ts queue reachable, ∀ k, EdgeTo ts x k → k ∈ bfsLoop ts queue reachable) := by
  intro n
  induction n with
  | zero =>
    intro queue reachable hm h1 h2 h3 h4
    have hq : queue = [] := by
      cases queue with
      | nil => rfl
      | cons a b =>
        exfalso
        simp [bfsMeasure] at hm
    subst hq
    rw [bfsLoop]
    exact ⟨fun x hx => hx, h2, h3, fun x hx k hk => h4 x hx (by simp) k hk⟩
  | succ nk ih =>
    intro queue reachable hm h1 h2 h3 h4
    cases queue with
    | nil =>
      rw [bfsLoop]
      exact ⟨fun x hx => hx, h2, h3, fun x hx k hk => h4 x hx (by simp) k hk⟩
    | cons current rest =>
      cases hlk : List.lookup current ts with
      | none =>
        exfalso
        have hs := h3 current (h1 current (List.mem_cons_self _ _))
        rw [hlk] at hs
        simp at hs
      | some tree =>
        rw [bfsLoop, hlk]
        have hmeas : bfsMeasure ts
            (enqueueRefs ts (collectLocalReferences tree.root) (reachable, rest)).1
            (enqueueRefs ts (collectLocalReferences tree.root) (reachable, rest)).2 ≤ nk := by
          have hle := enqueueRefs_measure_le ts (collectLocalReferences tree.root) reachable rest
          have heq : bfsMeasure ts reachable (current :: rest) =
              bfsMeasure ts reachable rest + 1 := by
            simp only [bfsMeasure, List.length_cons]
            omega
          omega
        have i1 : ∀ x ∈ (enqueueRefs ts (collectLocalReferences tree.root) (reachable, rest)).2,
            x ∈ (enqueueRefs ts (collectLocalReferences tree.root) (reachable, rest)).1 := by
          intro x hx
          rw [mem_enqueueRefs_snd] at hx
          rw [mem_enqueueRefs_fst]
          rcases hx with hx | ⟨ha, hb, -⟩
          · exact Or.inl (h1 x (List.mem_cons_of_mem _ hx))
          · exact Or.inr ⟨ha, hb⟩
        have i2 : ∀ x ∈ (enqueueRefs ts (collectLocalReferences tree.root) (reachable, rest)).1,
            ReachSpec ts eps x := by
          intro x hx
          rw [mem_enqueueRefs_fst] at hx
          rcases hx with hx | ⟨ha, hb⟩
          · exact h2 x hx
          · exact ReachSpec.step (h2 current (h1 current (List.mem_cons_self _ _)))
              ⟨tree, hlk, (mem_collectLocalReferences.mp ha).1,
                (mem_collectLocalReferences.mp ha).2, hb⟩
        have i3 : ∀ x ∈ (enqueueRefs ts (collectLocalReferences tree.root) (reachable, rest)).1,
            (List.lookup x ts).isSome = true := by
          intro x hx
          rw [mem_enqueueRefs_fst] at hx
          rcases hx with hx | ⟨-, hb⟩
          · exact h3 x hx
          · exact hb
        have i4 : ∀ m, m ∈ (enqueueRefs ts (collectLocalReferences tree.root) (reachable, rest)).1 →
            m ∉ (enqueueRefs ts (collectLocalReferences tree.root) (reachable, rest)).2 →
            ∀ k, EdgeTo ts m k →
              k ∈ (enqueueRefs ts (collectLocalReferences tree.root) (reachable, rest)).1 := by
          intro m hmem hnq k hk
          rw [mem_enqueueRefs_snd] at hnq
          have hnrest : m ∉ rest := fun hr => hnq (Or.inl hr)
          rw [mem_enqueueRefs_fst]
          by_cases hmc : m = current
          · subst hmc
            obtain ⟨t', ht', hl, hcn, hks⟩ := hk
            rw [hlk] at ht'
            cases ht'
            exact Or.inr ⟨mem_collectLocalReferences.mpr ⟨hl, hcn⟩, hks⟩
          · by_cases hmr : m ∈ reachable
            · refine Or.inl (h4 m hmr ?_ k hk)
              intro hmq
              rcases List.mem_cons.mp hmq with h | h
              · exact hmc h
              · exact hnrest h
            · rw [mem_enqueueRefs_fst] at hmem
              rcases hmem with h | ⟨ha, hb⟩
              · exact absurd h hmr
              · exact absurd (Or.inr ⟨ha, hb, hmr⟩) hnq
        obtain ⟨g1, g2, g3, g4⟩ := ih _ _ hmeas i1 i2 i3 i4
        refine ⟨?_, g2, g3, g4⟩
        intro x hx
        apply g1
        rw [mem_enqueueRefs_fst]
        exact Or.inl hx

/-- C3: a name is in ComputeReachableTemplates(templates, entryPoints) iff
it is in the closure of the entry points under local-reference edges
(entry points that are keys included, missing ones omitted); and under a
namespaced merge with non-empty entry points, a definition is added iff it
lies in that closure. -/
theorem computeReachableTemplates_correct (ts : List (TName × PTree)) (eps : List TName)
    (n : TName) :
    (n ∈ ComputeReachableTemplates ts eps ↔ ReachSpec ts eps n) ∧
    (∀ ns, eps ≠ [] →
      ((∃ p, (n, p) ∈ processNamespacedTemplate ts ns eps) ↔ ReachSpec ts eps n)) := by
  have hmain : ∀ m : TName, m ∈ ComputeReachableTemplates ts eps ↔ ReachSpec ts eps m := by
    have i1 : ∀ x ∈ (enqueueRefs ts eps ([], [])).2, x ∈ (enqueueRefs ts eps ([], [])).1 := by
      intro x hx
      rw [mem_enqueueRefs_snd] at hx
      rw [mem_enqueueRefs_fst]
      rcases hx with hx | ⟨ha, hb, -⟩
      · simp at hx
      · exact Or.inr ⟨ha, hb⟩
    have i2 : ∀ x ∈ (enqueueRefs ts eps ([], [])).1, ReachSpec ts eps x := by
      intro x hx
      rw [mem_enqueueRefs_fst] at hx
      rcases hx with hx | ⟨ha, hb⟩
      · simp at hx
      · exact ReachSpec.entry ha hb
    have i3 : ∀ x ∈ (enqueueRefs ts eps ([], [])).1, (List.lookup x ts).isSome = true := by
      intro x hx
      rw [mem_enqueueRefs_fst] at hx
      rcases hx with hx | ⟨-, hb⟩
      · simp at hx
      · exact hb
    have i4 : ∀ m, m ∈ (enqueueRefs ts eps ([], [])).1 → m ∉ (enqueueRefs ts eps ([], [])).2 →
        ∀ k, EdgeTo ts m k → k ∈ (enqueueRefs ts eps ([], [])).1 := by
      intro m hmem hnq k hk
      rw [mem_enqueueRefs_fst] at hmem
      rw [mem_enqueueRefs_snd] at hnq
      rcases hmem with h | ⟨ha, hb⟩
      · simp at h
      · exact absurd (Or.inr ⟨ha, hb, by simp⟩) hnq
    obtain ⟨g1, g2, g3, g4⟩ := bfsLoop_invariant ts eps
      (bfsMeasure ts (enqueueRefs ts eps ([], [])).1 (enqueueRefs ts eps ([], [])).2)
      (enqueueRefs ts eps ([], [])).2 (enqueueRefs ts eps ([], [])).1
      le_rfl i1 i2 i3 i4
    intro m
    constructor
    · intro hmem
      exact g2 m hmem
    · intro hr
      induction hr with
      | entry ha hb =>
        apply g1
        rw [mem_enqueueRefs_fst]
        exact Or.inr ⟨ha, hb⟩
      | step hrm he ihm =>
        exact g4 _ ihm _ he
  refine ⟨hmain n, ?_⟩
  intro ns heps
  rw [processNamespacedTemplate]
  have hne : ¬ eps.isEmpty = true := by
    cases eps with
    | nil => exact absurd rfl heps
    | cons a b => simp
  rw [if_neg hne]
  constructor
  · rintro ⟨p, hp⟩
    rw [List.mem_filterMap] at hp
    obtain ⟨a, ha, hfa⟩ := hp
    rw [Option.map_eq_some'] at hfa
    obtain ⟨t, -, hteq⟩ := hfa
    have : a = n := congrArg Prod.fst hteq
    subst this
    exact (hmain a).mp ha
  · intro hr
    have hks := reachSpec_lookup_isSome hr
    rw [Option.isSome_iff_exists] at hks
    obtain ⟨t, ht⟩ := hks
    refine ⟨(TransformName n ns,
      ⟨TransformName n ns, transformNode (fun m => TransformName m ns) t.root⟩), ?_⟩
    rw [List.mem_filterMap]
    exact ⟨n, (hmain n).mpr hr, by rw [ht]; rfl⟩

/-- C3 witness: the two equivalences at a concrete registry, entry-point
list and name, with the non-empty-entry-points hypothesis discharged. -/
theorem computeReachableTemplates_correct_witness :
    ((nm "a") ∈ ComputeReachableTemplates reachExampleTemplates [nm "a"] ↔
      ReachSpec reachExampleTemplates [nm "a"] (nm "a")) ∧
    ((∃ p, ((nm "a"), p) ∈ processNamespacedTemplate reachExampleTemplates (nm "NS") [nm "a"]) ↔
      ReachSpec reachExampleTemplates [nm "a"] (nm "a")) :=
  ⟨(computeReachableTemplates_correct reachExampleTemplates [nm "a"] (nm "a")).1,
   (computeReachableTemplates_correct reachExampleTemplates [nm "a"] (nm "a")).2
     (nm "NS") (by decide)⟩

mutual

/-- The names collected from a transformed node are the original names
mapped through the transform, in the same traversal order. -/
theorem collect_transformNode (f : TName → TName) :
    ∀ t : PNode, collectTemplateNames (transformNode f t) = (collectTemplateNames t).map f
  | .listNode cs => by
    simp only [transformNode, collectTemplateNames, collect_transformNodeList f cs]
  | .templateNode n => by
    simp only [transformNode, collectTemplateNames, List.map_cons, List.map_nil]
  | .ifNode l e => by
    simp only [transformNode, collectTemplateNames, collect_transformNode f l,
      collect_transformNodeOpt f e, List.map_append]
  | .rangeNode l e => by
    simp only [transformNode, collectTemplateNames, collect_transformNode f l,
      collect_transformNodeOpt f e, List.map_append]
  | .withNode l e => by
    simp only [transformNode, collectTemplateNames, collect_transformNode f l,
      collect_transformNodeOpt f e, List.map_append]
  | .actionNode => rfl
  | .textNode => rfl
  | .commentNode => rfl
  | .pipeNode => rfl

theorem collect_transformNodeList (f : TName → TName) :
    ∀ ts : List PNode,
      collectTemplateNamesList (transformNodeList f ts) = (collectTemplateNamesList ts).map f
  | [] => rfl
  | c :: cs => by
    simp only [transformNodeList, collectTemplateNamesList, collect_transformNode f c,
      collect_transformNodeList f cs, List.map_append]

theorem collect_transformNodeOpt (f : TName → TName) :
    ∀ o : Option PNode,
      collectTemplateNamesOpt (transformNodeOpt f o) = (collectTemplateNamesOpt o).map f
  | none => rfl
  | some p => by
    simp only [transformNodeOpt, collectTemplateNamesOpt, collect_transformNode f p]

end

/-- C4: after materializing extension (S, D, M) via CopyTreeWithRewrites,
the source tree S is found in the registry; D resolves to the rewritten
copy; the call names of the copy are exactly the call names of S rewritten
node-wise (M[x] when x is a key of M, x unchanged otherwise); and every
registry name other than D resolves exactly as before. -/
theorem copyTreeWithRewrites_depth1 (out : List (TName × PTree)) (ext : Extension)
    (out' : List (TName × PTree)) (hok : processExtensionsList [ext] out = .ok out') :
    ∃ src, List.lookup ext.SourceTemplate out = some src ∧
      List.lookup ext.DestTemplate out' =
        some ⟨ext.DestTemplate, (CopyTreeWithRewrites src ext.Rewrites).root⟩ ∧
      collectTemplateNames (CopyTreeWithRewrites src ext.Rewrites).root =
        (collectTemplateNames src.root).map (fun x =>
          match List.lookup x ext.Rewrites with
          | some y => y
          | none => x) ∧
      (∀ m, m ≠ ext.DestTemplate → List.lookup m out' = List.lookup m out) := by
  cases hlk : List.lookup ext.SourceTemplate out with
  | none =>
    simp only [processExtensionsList, hlk] at hok
    exact Except.noConfusion hok
  | some src =>
    simp only [processExtensionsList, hlk] at hok
    cases hok
    refine ⟨src, rfl, ?_, ?_, ?_⟩
    · simp [addParseTree, List.lookup]
    · rw [CopyTreeWithRewrites]
      rw [collect_transformNode]
      rfl
    · intro m hm
      simp only [addParseTree, List.lookup]
      have hb : (m == ext.DestTemplate) = false := beq_eq_false_iff_ne.mpr hm
      rw [hb]

/-- C4 witness: the depth-1 rewrite property at the concrete example
registry and extension, with the success hypothesis discharged. -/
theorem copyTreeWithRewrites_depth1_witness :
    processExtensionsList [extExample1] extExampleRegistry = .ok extExampleRegistryAfter ∧
    ∃ src, List.lookup extExample1.SourceTemplate extExampleRegistry = some src ∧
      List.lookup extExample1.DestTemplate extExampleRegistryAfter =
        some ⟨extExample1.DestTemplate, (CopyTreeWithRewrites src extExample1.Rewrites).root⟩ ∧
      collectTemplateNames (CopyTreeWithRewrites src extExample1.Rewrites).root =
        (collectTemplateNames src.root).map (fun x =>
          match List.lookup x extExample1.Rewrites with
          | some y => y
          | none => x) ∧
      (∀ m, m ≠ extExample1.DestTemplate →
        List.lookup m extExampleRegistryAfter = List.lookup m extExampleRegistry) :=
  ⟨rfl, copyTreeWithRewrites_depth1 extExampleRegistry extExample1 extExampleRegistryAfter rfl⟩

/-- C5: extensions are processed in recorded order: a missing source fails
immediately with extendSourceMissing no matter what extensions remain; a
present source adds the rewritten copy under the destination name and
processing continues on the updated registry; and for two chained
extensions whose second's source is the first's not-yet-registered
destination, the recorded order succeeds while the reversed order fails on
that second extension. -/
theorem processExtensionsList_order (e1 e2 : Extension) (out : List (TName × PTree)) :
    (∀ (ext : Extension) (rest : List Extension) (reg : List (TName × PTree)),
      List.lookup ext.SourceTemplate reg = none →
        processExtensionsList (ext :: rest) reg =
          .error (.extendSourceMissing ext.SourceTemplate)) ∧
    (∀ (ext : Extension) (rest : List Extension) (reg : List (TName × PTree)) (src : PTree),
      List.lookup ext.SourceTemplate reg = some src →
        processExtensionsList (ext :: rest) reg =
          processExtensionsList rest
            (addParseTree reg ext.DestTemplate
              ⟨ext.DestTemplate, (CopyTreeWithRewrites src ext.Rewrites).root⟩)) ∧
    (e2.SourceTemplate = e1.DestTemplate →
      List.lookup e1.DestTemplate out = none →
      (∃ src, List.lookup e1.SourceTemplate out = some src) →
      (∃ reg, processExtensionsList [e1, e2] out = .ok reg) ∧
        processExtensionsList [e2, e1] out =
          .error (.extendSourceMissing e2.SourceTemplate)) := by
  refine ⟨?_, ?_, ?_⟩
  · intro ext rest reg hnone
    simp only [processExtensionsList, hnone]
  · intro ext rest reg src hsome
    simp only [processExtensionsList, hsome]
  · rintro hchain hmiss ⟨src, hsrc⟩
    constructor
    · simp only [processExtensionsList, hsrc, hchain]
      have hhit : List.lookup e1.DestTemplate
          (addParseTree out e1.DestTemplate
            ⟨e1.DestTemplate, (CopyTreeWithRewrites src e1.Rewrites).root⟩) =
          some ⟨e1.DestTemplate, (CopyTreeWithRewrites src e1.Rewrites).root⟩ := by
        simp [addParseTree, List.lookup]
      rw [hhit]
      exact ⟨_, rfl⟩
    · simp only [processExtensionsList, hchain, hmiss]

/-- C5 witness: the three parts at the concrete chained extensions, with
every hypothesis discharged on the example registry. -/
theorem processExtensionsList_order_witness :
    extExample2.SourceTemplate = extExample1.DestTemplate ∧
    List.lookup extExample1.DestTemplate extExampleRegistry = none ∧
    ((∃ reg, processExtensionsList [extExample1, extExample2] extExampleRegistry = .ok reg) ∧
      processExtensionsList [extExample2, extExample1] extExampleRegistry =
        .error (.extendSourceMissing extExample2.SourceTemplate)) :=
  ⟨by decide, rfl,
   (processExtensionsList_order extExample1 extExample2 extExampleRegistry).2.2
     (by decide) rfl
     ⟨⟨nm "EL:Grid", .templateNode (nm "EL:GridCardPreview")⟩, rfl⟩⟩

/-- The includes projection after withIncludes. -/
theorem template_includes_withIncludes (t : Template) (i : List Template) :
    (t.withIncludes i).includes = i := by
  cases t with
  | mk n r p pa s a old e m => rfl

/-- Non-includes projections are preserved by withIncludes (path shown; the
others are analogous and unused). -/
theorem template_path_withIncludes (t : Template) (i : List Template) :
    (t.withIncludes i).path = t.path := by
  cases t with
  | mk n r p pa s a old e m => rfl

/-- C7 (amended): for a file-backed t (non-empty path), AddDependency
returns false iff an existing dependency has the same path as the
candidate — paths compared verbatim, including empty ones — leaving t
unchanged; when it returns true the candidate has been appended. For an
inline t (empty path) it returns true without touching the dependency
list. -/
theorem addDependency_spec (t c : Template) :
    (t.path ≠ "" →
      (((AddDependency t c).2 = false) ↔ ∃ child ∈ t.includes, child.path = c.path) ∧
      ((AddDependency t c).2 = false → (AddDependency t c).1 = t) ∧
      ((AddDependency t c).2 = true →
        (AddDependency t c).1.includes = t.includes ++ [c])) ∧
    (t.path = "" → AddDependency t c = (t, true)) := by
  constructor
  · intro hp
    by_cases ha : t.includes.any (fun child => child.path == c.path) = true
    · have heq : AddDependency t c = (t, false) := by
        rw [AddDependency, if_pos hp, if_pos ha]
      rw [heq]
      refine ⟨?_, fun _ => rfl, fun h => Bool.noConfusion h⟩
      simp only [true_iff]
      rw [List.any_eq_true] at ha
      obtain ⟨child, hm, hb⟩ := ha
      exact ⟨child, hm, beq_iff_eq.mp hb⟩
    · have heq : AddDependency t c = (t.withIncludes (t.includes ++ [c]), true) := by
        rw [AddDependency, if_pos hp, if_neg ha]
      rw [heq]
      refine ⟨?_, fun h => Bool.noConfusion h, fun _ => template_includes_withIncludes t _⟩
      simp only [Bool.true_eq_false, false_iff]
      rintro ⟨child, hm, hpe⟩
      exact ha (List.any_eq_true.mpr ⟨child, hm, beq_iff_eq.mpr hpe⟩)
  · intro hp
    rw [AddDependency, if_neg (fun h => h hp)]

/-- C7 counterexample: for an inline root (empty path), AddDependency
returns true yet appends nothing, contradicting "whenever it returns true,
c has been appended". -/
theorem addDependency_inline_counterexample :
    inlineRootTemplate.path = "" ∧
      (AddDependency inlineRootTemplate fileChildTemplate).2 = true ∧
      (AddDependency inlineRootTemplate fileChildTemplate).1.includes = [] :=
  ⟨rfl, rfl, rfl⟩

/-- C7 witness: the amended claim at a file-backed root and a fresh
candidate — the call returns true and appends the candidate. -/
theorem addDependency_spec_witness :
    fileRootTemplate.path ≠ "" ∧
      ((AddDependency fileRootTemplate fileChildTemplate).2 = true →
        (AddDependency fileRootTemplate fileChildTemplate).1.includes =
          fileRootTemplate.includes ++ [fileChildTemplate]) :=
  ⟨by decide, ((addDependency_spec fileRootTemplate fileChildTemplate).1 (by decide)).2.2⟩

/-- C6 (amended): member loaders are tried in order: a member returning a
successful match (nil error, non-empty list) ends the search with that
result regardless of later members; a member returning TemplateNotFound
cascades to the next member; a member returning any other error — or an
error-free empty result — stops the member search; and whenever the member
search ends without a successful match, whether by exhaustion or by
stopping early, the configured default loader is consulted (so the default
runs even after a non-not-found member error, whose error is discarded);
with no default configured the result is TemplateNotFound. -/
theorem loaderList_load_spec (name cwd : String) :
    (∀ (l : LoaderFn) (rest : List LoaderFn),
      (l name cwd).err = none → (l name cwd).matched.length > 0 →
        tryLoaders name cwd (l :: rest) = some (l name cwd)) ∧
    (∀ (l : LoaderFn) (rest : List LoaderFn),
      (l name cwd).err = some .notFound →
        tryLoaders name cwd (l :: rest) = tryLoaders name cwd rest) ∧
    (∀ (l : LoaderFn) (rest : List LoaderFn),
      ¬((l name cwd).err = none ∧ (l name cwd).matched.length > 0) →
      (l name cwd).err ≠ some .notFound →
        tryLoaders name cwd (l :: rest) = none) ∧
    (∀ ll : LoaderList,
      tryLoaders name cwd ll.loaders = none →
        ll.Load name cwd = (match ll.DefaultLoader with
          | some d => d name cwd
          | none => ⟨[], some .notFound⟩)) ∧
    (∀ (ll : LoaderList) (res : LoadResult),
      tryLoaders name cwd ll.loaders = some res → ll.Load name cwd = res) := by
  refine ⟨?_, ?_, ?_, ?_, ?_⟩
  · intro l rest h1 h2
    simp only [tryLoaders]
    rw [if_pos ⟨h1, h2⟩]
  · intro l rest h1
    simp only [tryLoaders]
    rw [if_neg (fun hs => by rw [h1] at hs; exact Option.noConfusion hs.1), if_pos h1]
  · intro l rest h1 h2
    simp only [tryLoaders]
    rw [if_neg h1, if_neg h2]
  · intro ll h
    rw [LoaderList.Load, h]
  · intro ll res h
    rw [LoaderList.Load, h]

/-- C6 counterexample: with a single member failing with a non-not-found
error and a configured default, Load returns the default loader's
successful result: the default is consulted although not every member
returned not-found (and the member's error is swallowed). -/
theorem loaderList_default_after_error_counterexample :
    (ioFailingLoader "x" "").err = some (.ioError "read failed") ∧
      loaderListExample.Load "x" "" = ⟨[defaultMarkerTemplate], none⟩ :=
  ⟨rfl, rfl⟩

/-- C6 witness: the member-loop equations and the fall-through at concrete
loaders, with every hypothesis discharged. -/
theorem loaderList_load_spec_witness :
    tryLoaders "x" "" [defaultExampleLoader] = some (defaultExampleLoader "x" "") ∧
    tryLoaders "x" "" (notFoundLoader :: [defaultExampleLoader]) =
      tryLoaders "x" "" [defaultExampleLoader] ∧
    tryLoaders "x" "" [ioFailingLoader] = none ∧
    loaderListExample.Load "x" "" = (match loaderListExample.DefaultLoader with
      | some d => d "x" ""
      | none => ⟨[], some .notFound⟩) :=
  ⟨(loaderList_load_spec "x" "").1 defaultExampleLoader [] rfl (by decide),
   (loaderList_load_spec "x" "").2.1 notFoundLoader [defaultExampleLoader] rfl,
   (loaderList_load_spec "x" "").2.2.1 ioFailingLoader [] (by decide) (by decide),
   (loaderList_load_spec "x" "").2.2.2.1 loaderListExample rfl⟩

/-- Unfolding equation: no includes left to process. -/
theorem walkChildren_nil (store : List (String × List String)) (ip deps : List String) :
    walkChildren store ip [] deps = some [] := by
  rw [walkChildren.eq_def]

/-- Unfolding equation: process one include. -/
theorem walkChildren_cons (store : List (String × List String)) (ip : List String)
    (inc : String) (rest deps : List String) :
    walkChildren store ip (inc :: rest) deps =
      if deps.contains inc then walkChildren store ip rest deps
      else
        match WalkerWalk store ip inc with
        | none => none
        | some visited =>
          match walkChildren store ip rest (inc :: deps) with
          | none => none
          | some more => some (visited ++ more) := by
  rw [walkChildren.eq_def]

/-- A walk that re-enters an in-progress path returns success at once. -/
theorem walkerWalk_reentry (store : List (String × List String)) (ip : List String)
    (path : String) (h : ip.contains path = true) :
    WalkerWalk store ip path = some [] := by
  rw [WalkerWalk, dif_pos h]

/-- Concrete evaluation of the walk on the cyclic store a → b → a: b's
back-edge to a is cut at re-entry, and both records are processed once. -/
theorem walkerWalk_cycle_example : WalkerWalk cyclicStore [] "a" = some ["b", "a"] := by
  have ha2 : WalkerWalk cyclicStore ["b", "a"] "a" = some [] :=
    walkerWalk_reentry cyclicStore ["b", "a"] "a" (by decide)
  have hlkb : List.lookup "b" cyclicStore = some ["a"] := by decide
  have hb : WalkerWalk cyclicStore ["a"] "b" = some ["b"] := by
    rw [WalkerWalk, dif_neg (by decide), hlkb]
    simp only []
    rw [walkChildren_cons, if_neg (by decide), ha2, walkChildren_nil]
    rfl
  have hlka : List.lookup "a" cyclicStore = some ["b"] := by decide
  rw [WalkerWalk, dif_neg (by decide), hlka]
  simp only []
  rw [walkChildren_cons, if_neg (by decide), hb, walkChildren_nil]
  rfl

/-- C8: the walk over file-backed records is a total function — its
well-founded recursion on (unvisited store keys, pending includes) is the
finite-termination argument — and before processing a record it checks the
shared in-progress set, returning success immediately with no reprocessing
when the path is already present, so each back-edge is cut at its first
re-entry point; on the cyclic store a → b → a the walk terminates and
processes each record exactly once, in child-first order. -/
theorem walkerWalk_cycle_safety :
    (∀ (store : List (String × List String)) (ip : List String) (path : String),
      ip.contains path = true → WalkerWalk store ip path = some []) ∧
    WalkerWalk cyclicStore [] "a" = some ["b", "a"] :=
  ⟨walkerWalk_reentry, walkerWalk_cycle_example⟩

/-- C8 witness: the re-entry cut applied at a concrete in-progress set. -/
theorem walkerWalk_cycle_safety_witness :
    (["a"].contains "a") = true ∧ WalkerWalk cyclicStore ["a"] "a" = some [] :=
  ⟨by decide, walkerWalk_cycle_safety.1 cyclicStore ["a"] "a" (by decide)⟩

/-- C9 (amended): for the root record of the walk — file-backed, empty
namespace, no entry points — the callback registers the residue's
top-level tree under the file's base name and merges the parsed named
sub-trees under their original names; a non-root record with empty
namespace and no entry points is skipped by the callback, its definitions
reaching the registry through the parent's residue instead. -/
theorem processRecord_spec (reg : List (TName × PTree)) (curr : CRecord) :
    (curr.path ≠ "" → curr.ns = [] → curr.entryPoints = [] →
      processRecord reg curr true =
        addParseTree (curr.parsedDefs ++ reg) (nm (filepathBase curr.path)) curr.mainTree ∧
      List.lookup (nm (filepathBase curr.path)) (processRecord reg curr true) =
        some curr.mainTree ∧
      (∀ n, n ≠ nm (filepathBase curr.path) →
        List.lookup n (processRecord reg curr true) =
          List.lookup n (curr.parsedDefs ++ reg))) ∧
    (curr.ns = [] → curr.entryPoints = [] → processRecord reg curr false = reg) := by
  constructor
  · intro hp hns heps
    have hmain : processRecord reg curr true =
        addParseTree (curr.parsedDefs ++ reg) (nm (filepathBase curr.path)) curr.mainTree := by
      rw [processRecord,
        if_neg (fun h => h.1 (by simp)),
        if_neg hp,
        if_neg (fun h => h hns),
        if_neg (fun h => h heps)]
    refine ⟨hmain, ?_, ?_⟩
    · rw [hmain]
      simp [addParseTree, List.lookup]
    · intro n hn
      rw [hmain]
      simp only [addParseTree, List.lookup]
      have hb : (n == nm (filepathBase curr.path)) = false := beq_eq_false_iff_ne.mpr hn
      rw [hb]
  · intro hns heps
    rw [processRecord, if_pos ⟨by simp, hns, heps⟩]

/-- C9 counterexample: a non-root file-backed record with empty namespace
and no entry points is skipped by the composition callback — nothing is
registered under its base name and its defines are not merged — while the
claim says every such visited record is parsed and registered. -/
theorem processRecord_nonroot_skip_counterexample :
    childPlainRecord.path ≠ "" ∧ childPlainRecord.ns = [] ∧
      childPlainRecord.entryPoints = [] ∧
      processRecord [] childPlainRecord false = [] ∧
      List.lookup (nm (filepathBase childPlainRecord.path))
        (processRecord [] childPlainRecord false) = none :=
  ⟨by decide, rfl, rfl, rfl, rfl⟩

/-- C9 witness: the amended claim at a concrete root record. -/
theorem processRecord_spec_witness :
    rootPlainRecord.path ≠ "" ∧
      List.lookup (nm (filepathBase rootPlainRecord.path))
        (processRecord [] rootPlainRecord true) = some rootPlainRecord.mainTree ∧
      processRecord [] rootPlainRecord false = [] :=
  ⟨by decide,
   ((processRecord_spec [] rootPlainRecord).1 (by decide) rfl rfl).2.1,
   (processRecord_spec [] rootPlainRecord).2 rfl rfl⟩

/-- Success shape of the extension loop: a hit with nil error is a single
fresh record whose path came from joinAbs and whose raw source is the
file's contents. -/
theorem tryExtensions_success (fs : FS) (folder withoutext : String) :
    ∀ (exts : List String) (out : List Template),
      tryExtensions fs folder withoutext exts = some (out, none) →
      ∃ (p : String) (contents : List Char),
        out = [Template.mk "" contents "" p 0 false [] none []] ∧
        (∃ b, fs.joinAbs folder b = some p) ∧
        fs.readFile p = (contents, none) := by
  intro exts
  induction exts with
  | nil =>
    intro out h
    simp only [tryExtensions] at h
    exact Option.noConfusion h
  | cons e rest ih =>
    intro out h
    simp only [tryExtensions] at h
    cases hj : fs.joinAbs folder (withoutext ++ "." ++ e) with
    | none =>
      rw [hj] at h
      simp only [] at h
      exact ih out h
    | some fname =>
      rw [hj] at h
      simp only [] at h
      cases hs : fs.stat fname with
      | none =>
        rw [hs] at h
        simp only [] at h
        exact ih out h
      | some info =>
        rw [hs] at h
        simp only [] at h
        cases hdd : info.isDir with
        | false =>
          rw [hdd] at h
          rw [if_pos (by simp)] at h
          injection h with h'
          have h1 : [Template.mk "" (fs.readFile fname).1 "" fname 0 false [] none []] = out :=
            congrArg Prod.fst h'
          have h2 : (fs.readFile fname).2 = none := congrArg Prod.snd h'
          refine ⟨fname, (fs.readFile fname).1, h1.symm, ⟨_, hj⟩, ?_⟩
          cases hrf : fs.readFile fname with
          | mk c err =>
            rw [hrf] at h2
            have h2' : err = none := h2
            subst h2'
            rfl
        | true =>
          rw [hdd] at h
          rw [if_neg (by simp)] at h
          exact ih out h

/-- Success shape of the folder loop, inherited from the extension loop. -/
theorem tryFolders_success (fs : FS) (withoutext : String) (extensions : List String) :
    ∀ (folders : List String) (out : List Template),
      tryFolders fs withoutext extensions folders = some (out, none) →
      ∃ (p : String) (contents : List Char),
        out = [Template.mk "" contents "" p 0 false [] none []] ∧
        (∃ a b, fs.joinAbs a b = some p) ∧
        fs.readFile p = (contents, none) := by
  intro folders
  induction folders with
  | nil =>
    intro out h
    simp only [tryFolders] at h
    exact Option.noConfusion h
  | cons folder rest ih =>
    intro out h
    simp only [tryFolders] at h
    cases ha : fs.absPath folder with
    | none =>
      rw [ha] at h
      simp only [] at h
      exact ih out h
    | some folderAbs =>
      rw [ha] at h
      simp only [] at h
      cases hs : fs.stat folderAbs with
      | none =>
        rw [hs] at h
        simp only [] at h
        exact ih out h
      | some info =>
        rw [hs] at h
        simp only [] at h
        by_cases hd : info.isDir = true
        · rw [if_pos hd] at h
          cases he : tryExtensions fs folderAbs withoutext extensions with
          | none =>
            rw [he] at h
            simp only [] at h
            exact ih out h
          | some res =>
            rw [he] at h
            simp only [] at h
            cases h
            obtain ⟨p, c, h1, ⟨b, h2⟩, h3⟩ := tryExtensions_success fs folderAbs withoutext
              extensions out he
            exact ⟨p, c, h1, ⟨folderAbs, b, h2⟩, h3⟩
        · rw [if_neg hd] at h
          exact ih out h

/-- C10: whenever FileSystemLoader.Load returns a nil error — on a
filesystem whose Abs-resolved file paths are absolute — the returned list
contains exactly one record; its Path is an absolute file path, its
RawSource is the contents of the file at that path, and every other
field (Name, ParsedSource, Status, AsHtml, includes, Error, Metadata) is
the zero value. -/
theorem loadResultOf_success (fs : FS) (withoutext : String)
    (extensions folders : List String) (out : List Template)
    (h : loadResultOf fs withoutext extensions folders = (out, none)) :
    ∃ (p : String) (contents : List Char),
      out = [Template.mk "" contents "" p 0 false [] none []] ∧
      (∃ a b, fs.joinAbs a b = some p) ∧
      fs.readFile p = (contents, none) := by
  rw [loadResultOf] at h
  cases ht : tryFolders fs withoutext extensions folders with
  | none =>
    rw [ht] at h
    simp only [] at h
    exact absurd (congrArg Prod.snd h) (by simp)
  | some res =>
    rw [ht] at h
    simp only [] at h
    rw [h] at ht
    exact tryFolders_success fs withoutext extensions folders out ht

theorem fileSystemLoaderLoad_success (g : FSLoader) (fs : FS) (name cwd : String)
    (hfs : ∀ a b r, fs.joinAbs a b = some r → isAbsolutePath r = true)
    (out : List Template)
    (h : FileSystemLoaderLoad g fs name cwd = (out, none)) :
    ∃ (p : String) (contents : List Char),
      out = [Template.mk "" contents "" p 0 false [] none []] ∧
      isAbsolutePath p = true ∧
      fs.readFile p = (contents, none) := by
  rw [FileSystemLoaderLoad] at h
  obtain ⟨p, c, h1, ⟨a, b, h2⟩, h3⟩ := loadResultOf_success fs _ _ _ out h
  exact ⟨p, c, h1, hfs a b p h2, h3⟩

/-- C10 witness: a successful load on the concrete one-file filesystem,
with the hypotheses discharged. -/
theorem fileSystemLoaderLoad_success_witness :
    FileSystemLoaderLoad exampleFSLoader exampleFS "x.tmpl" "" =
      ([Template.mk "" (nm "hello") "" "/root/x.tmpl" 0 false [] none []], none) ∧
    ∃ (p : String) (contents : List Char),
      [Template.mk "" (nm "hello") "" "/root/x.tmpl" 0 false [] none []] =
        [Template.mk "" contents "" p 0 false [] none []] ∧
      isAbsolutePath p = true ∧
      exampleFS.readFile p = (contents, none) :=
  ⟨rfl,
   fileSystemLoaderLoad_success exampleFSLoader exampleFS "x.tmpl" ""
     (fun a b r hr => by
       cases hr
       decide)
     [Template.mk "" (nm "hello") "" "/root/x.tmpl" 0 false [] none []] rfl⟩

end Templar
